import Mathlib

/-!
Verification development for the hybrid retrieval-and-fusion engine
(`src/vector_retriever.py`, `src/rag_chat_agent.py`).

The engine combines dense vector search and BM25 keyword search, merges the
two ranked lists with weighted Rank-Reciprocal Fusion (RRF), and optionally
routes the fused list through an external reranker.

Modelling conventions:
* Python floats are modelled as `ℚ` where only field arithmetic occurs
  (RRF fusion, weights) and as `ℝ` where `math.log` appears (BM25 scores).
* Python's `list.sort` / `sorted` are stable; they are modelled by a stable
  insertion sort (`sortDescBy`) proved below to be a permutation, sorted,
  and stable — extensionally the same function as any stable sort.
* Tokenization (`jieba`, stop-word filtering in `_preprocess_text`) is the
  injected, script-dependent segmentation capability of the design; the
  BM25 index and queries are therefore modelled directly over term
  sequences, exactly the data `_build_index` / `_calculate_bm25_score`
  consume.
* Python dicts preserve insertion order; the accumulator dictionaries of
  `rerank_with_weights` are modelled as association lists updated in place
  (`addEntry`), which has the same observable ordering behaviour.
* `hash(content)` membership in `VecRetriever.search` is modelled as exact
  string membership (Python string hashing is injective modulo collisions,
  which the code treats as impossible).
-/

open scoped List

/-- A retrieval result record as built by the retrievers: the fields of the
Python dicts that the fusion and orchestration layers inspect. -/
structure RRFResult where
  content : String
  file_name : String
  score : Option ℚ
deriving DecidableEq, Repr

/-- Error raised by `rerank_with_weights` when the number of result lists
does not match the number of weights (the `ValueError`, classified as the
spec's `ConfigurationError`). -/
inductive RetrievalError where
  | configurationError : RetrievalError
deriving DecidableEq, Repr

/-! ### A stable descending sort (model of Python's stable `sorted`) -/

/-- Insert `x` into a descending-sorted list, after all elements whose key is
strictly greater and before all elements whose key is `≤` — so an element
inserted on top of equal-key elements that came later in the input stays in
front of them. -/
def insertDescBy {α K : Type} [LinearOrder K] (key : α → K) (x : α) : List α → List α
  | [] => [x]
  | y :: ys => if key x < key y then y :: insertDescBy key x ys else x :: y :: ys

/-- Stable sort, descending by `key`: equal-key elements keep their input
order. This is extensionally Python's `sorted(l, key=key, reverse=True)`. -/
def sortDescBy {α K : Type} [LinearOrder K] (key : α → K) : List α → List α
  | [] => []
  | x :: xs => insertDescBy key x (sortDescBy key xs)

/-! ### VecRetriever (`vector_retriever.py`, class `VecRetriever`)

`search` queries the injected dense-search capability and normalizes each
raw record into a canonical result dict. The two source shapes (payload
object / plain mapping) are normalized to the same `(text, source, score)`
data, modelled here as `RawItem`; records of neither shape are skipped by
the capability boundary before the loop modelled here. The loop keeps a
record iff its content is truthy (non-empty — note: not "non-blank") and
its content hash is unseen, modelled as exact string membership in the
`seen` set. -/

/-- A raw record from the dense-search capability, already normalized to
the fields the loop of `VecRetriever.search` reads. -/
structure RawItem where
  text : String
  source_file : String
  score : Option ℚ
deriving DecidableEq, Repr

namespace VecRetriever

/-- Building of `result_item` from a kept raw record: `content`, `source`
(as `file_name`) and the optional `score` are carried over. -/
def toResult (item : RawItem) : RRFResult :=
  ⟨item.text, item.source_file, item.score⟩

/-- The result-building loop of `search`: keep a record iff its content is
non-empty (`if content`) and not already seen, then record its content as
seen. -/
def dedupLoop : List RawItem → List String → List RRFResult
  | [], _ => []
  | item :: rest, seen =>
    if item.text ≠ "" ∧ item.text ∉ seen then
      toResult item :: dedupLoop rest (item.text :: seen)
    else dedupLoop rest seen

/-- `VecRetriever.search`, from the raw capability results onward. -/
def search (raw : List RawItem) : List RRFResult := dedupLoop raw []

end VecRetriever

/-- Spec-side first-occurrence deduplication by exact content equality:
keep the head, drop every later record with the same content, recurse. -/
def dedupFirst : List RawItem → List RawItem
  | [] => []
  | x :: xs => x :: dedupFirst (xs.filter (fun y => decide (y.text ≠ x.text)))
termination_by l => l.length
decreasing_by
  simp only [List.length_cons]
  exact Nat.lt_succ_of_le (List.length_filter_le _ _)

/-- The claim's "blank" predicate: content consisting only of whitespace
(the empty string included) — what Python's `content.strip() == ''`
tests. -/
def isBlank (s : String) : Bool := s.data.all Char.isWhitespace

/-! ### RRFReranker (`vector_retriever.py`, class `RRFReranker`) -/

namespace RRFReranker

/-- One step of the `doc_scores` / `doc_info` accumulation: if an entry with
the same `content` exists its score is increased in place (Python dict
update keeps the key's position), otherwise a fresh entry is appended with
`r` as the stored first-occurrence record (`doc_info`). -/
def addEntry (acc : List (RRFResult × ℚ)) (r : RRFResult) (v : ℚ) :
    List (RRFResult × ℚ) :=
  match acc with
  | [] => [(r, v)]
  | (r', v') :: rest =>
    if r'.content = r.content then (r', v' + v) :: rest
    else (r', v') :: addEntry rest r v

/-- The inner loop `for rank, result in enumerate(results)`: each record at
0-based `rank` contributes `weight * (1 / (rank + 1 + k))`. -/
def scoreList (k w : ℚ) : List RRFResult → ℕ → List (RRFResult × ℚ) →
    List (RRFResult × ℚ)
  | [], _, acc => acc
  | r :: rs, rank, acc =>
      scoreList k w rs (rank + 1) (addEntry acc r (w * (1 / ((rank : ℚ) + 1 + k))))

/-- The outer loop `for results, weight in zip(result_lists, weights)`. -/
def accumulate (k : ℚ) (result_lists : List (List RRFResult))
    (weights : List ℚ) : List (RRFResult × ℚ) :=
  (result_lists.zip weights).foldl (fun acc lw => scoreList k lw.2 lw.1 0 acc) []

/-- `RRFReranker.rerank_with_weights`: raises on a list/weight cardinality
mismatch, otherwise accumulates weighted reciprocal-rank scores keyed by
`content`, sorts by fused score descending (stable), and truncates. -/
def rerank_with_weights (k : ℚ) (result_lists : List (List RRFResult))
    (weights : List ℚ) (top_k : ℕ) :
    Except RetrievalError (List (RRFResult × ℚ)) :=
  if result_lists.length ≠ weights.length then
    .error .configurationError
  else
    .ok ((sortDescBy (fun p => p.2) (accumulate k result_lists weights)).take top_k)

/-- Cumulative fused score the accumulator assigns to a content string
(`doc_scores.get(c, 0)`). -/
def lookupScore (acc : List (RRFResult × ℚ)) (c : String) : ℚ :=
  match acc with
  | [] => 0
  | (r, v) :: rest => if r.content = c then v else lookupScore rest c

/-- Default of the `k` parameter of `RRFReranker.__init__` (`k: int = 60`). -/
def defaultK : ℕ := 60

end RRFReranker

/-! Spec-side definitions for the fused-score claim, written from the spec's
words: "for each list `i` with weight `w_i`, for each document at 1-based
rank `r` in that list, add `w_i * (1 / (r + k))` to that document's
cumulative fused score, keyed by exact `content` identity." -/

/-- Sum of `1 / (r + k)` over every 1-based rank `r` at which content `c`
appears in the single list `l`. -/
def rrfContentScore (k : ℚ) (c : String) (l : List RRFResult) : ℚ :=
  (((l.enum.filter (fun p => p.2.content = c)).map
    (fun p => 1 / ((p.1 : ℚ) + 1 + k))).sum)

/-- The spec's cumulative fused score of content `c`: the weighted sum of
`rrfContentScore` over all (list, weight) pairs. -/
def rrfSpecScore (k : ℚ) (result_lists : List (List RRFResult))
    (weights : List ℚ) (c : String) : ℚ :=
  ((result_lists.zip weights).map
    (fun lw => lw.2 * rrfContentScore k c lw.1)).sum

/-- Recursive companion of `rrfContentScore`, generalized over the starting
0-based rank, used to follow the shape of `RRFReranker.scoreList`. -/
def rrfContentScoreFrom (k : ℚ) (c : String) : List RRFResult → ℕ → ℚ
  | [], _ => 0
  | r :: rs, rank =>
      (if r.content = c then 1 / ((rank : ℚ) + 1 + k) else 0) +
        rrfContentScoreFrom k c rs (rank + 1)

instance instDecidableEqExceptRetrieval {ε α : Type} [DecidableEq ε]
    [DecidableEq α] : DecidableEq (Except ε α) := fun a b =>
  match a, b with
  | .ok x, .ok y =>
    if h : x = y then .isTrue (by rw [h]) else .isFalse (by simp [h])
  | .error x, .error y =>
    if h : x = y then .isTrue (by rw [h]) else .isFalse (by simp [h])
  | .ok _, .error _ => .isFalse (by simp)
  | .error _, .ok _ => .isFalse (by simp)

/-! ### Worked-example documents for the RRF claim -/

def exD1 : RRFResult := ⟨"d1", "a.txt", none⟩

def exD2 : RRFResult := ⟨"d2", "b.txt", none⟩

def exD3 : RRFResult := ⟨"d3", "c.txt", none⟩

/-! ### KeywordRetriever (`vector_retriever.py`, class `KeywordRetriever`)

The corpus is modelled by the per-document term sequences
(`self.document_terms`, the output of the injected tokenizer), from which
`_build_index` derives everything else: `doc_lengths` is the list of term
counts, `term_doc_freq` counts the documents containing a term at least
once, and `avg_doc_length` is their mean (`0` on an empty corpus, the
explicit guard in `_build_index`). The result-formatting tail of `search`
(source preview, OCR page-number extraction) is not modelled: no claim
refers to it, and it does not affect which documents are returned, their
scores, or their order. -/

namespace KeywordRetriever

/-- BM25 parameter `k1` (`self.k1 = 1.5`). -/
def k1 : ℝ := 1.5

/-- BM25 parameter `b` (`self.b = 0.75`). -/
def b : ℝ := 0.75

/-- Number of indexed documents containing term `t` at least once
(`self.term_doc_freq[t]`). -/
def term_doc_freq (dt : List (List String)) (t : String) : ℕ :=
  (dt.filter (fun d => decide (t ∈ d))).length

/-- Average document length, `sum(doc_lengths) / len(doc_lengths)` with the
`if self.doc_lengths else 0` guard of `_build_index`. -/
def avg_doc_length (dt : List (List String)) : ℚ :=
  if dt = [] then 0
  else (((dt.map List.length).sum : ℕ) : ℚ) / (dt.length : ℚ)

/-- The IDF factor `math.log((N - df + 0.5) / (df + 0.5))` of
`_calculate_bm25_score`. -/
noncomputable def idf (dt : List (List String)) (t : String) : ℝ :=
  Real.log (((dt.length : ℝ) - (term_doc_freq dt t : ℝ) + 0.5) /
    ((term_doc_freq dt t : ℝ) + 0.5))

/-- The TF factor `tf * (k1+1) / (tf + k1 * (1 - b + b * dl/avg_dl))` of
`_calculate_bm25_score`. -/
noncomputable def tf_component (dt : List (List String)) (doc_idx : ℕ)
    (t : String) : ℝ :=
  ((dt.getD doc_idx []).count t * (k1 + 1)) /
    ((dt.getD doc_idx []).count t +
      k1 * (1 - b + b * (((dt.getD doc_idx []).length : ℝ) /
        ((avg_doc_length dt : ℚ) : ℝ))))

/-- `_calculate_bm25_score`: fold over the query terms, adding
`idf * tf_component` for each term present in the document
(`if term in term_freq`) and nothing otherwise. -/
noncomputable def calculate_bm25_score (dt : List (List String))
    (query_terms : List String) (doc_idx : ℕ) : ℝ :=
  query_terms.foldl (fun score term =>
    if term ∈ dt.getD doc_idx [] then
      score + idf dt term * tf_component dt doc_idx term
    else score) 0

open Classical in
/-- `search`, scoring stage: the `(index, score)` pairs of documents with
`score > 0`, in document order (`for i in range(len(self.documents))`). -/
noncomputable def doc_scores (dt : List (List String)) (q : List String) :
    List (ℕ × ℝ) :=
  ((List.range dt.length).map (fun i => (i, calculate_bm25_score dt q i))).filter
    (fun p => decide (0 < p.2))

/-- `search`, ordering stage: `doc_scores.sort(key=..., reverse=True)` —
Python's stable sort, descending by score. -/
noncomputable def ranked (dt : List (List String)) (q : List String) :
    List (ℕ × ℝ) :=
  sortDescBy (fun p => p.2) (doc_scores dt q)

/-- `search`: empty-corpus and empty-tokenized-query guards, then the
sorted positive-score pairs truncated to `top_k`
(`doc_scores[:top_k]`). -/
noncomputable def searchIdx (dt : List (List String)) (q : List String)
    (top_k : ℕ) : List (ℕ × ℝ) :=
  if dt = [] then []
  else if q = [] then []
  else (ranked dt q).take top_k

end KeywordRetriever

/-- The spec's BM25 score: `Σ over query terms t present in d of
idf(t) * tf_term(t, d)`. -/
noncomputable def bm25SpecScore (dt : List (List String)) (q : List String)
    (i : ℕ) : ℝ :=
  ((q.filter (fun t => decide (t ∈ dt.getD i []))).map
    (fun t => KeywordRetriever.idf dt t * KeywordRetriever.tf_component dt i t)).sum

/-! ### PineconeCohereReranker (`vector_retriever.py`)

The external reranker wraps the remote relevance-scoring capability, here
an injected function from the query, the submitted `(id, text)` document
pairs, and the requested count to a list of `(index, score)` response
entries. -/

/-- One entry of the remote rerank response: an index into the submitted
documents and a relevance score. -/
structure RerankEntry where
  index : ℤ
  score : ℚ
deriving DecidableEq, Repr

namespace PineconeCohereReranker

/-- `top_n or len(documents)` with Python truthiness: both `None` and `0`
fall back to the document count. -/
def resolveTopN (top_n : Option ℕ) (len : ℕ) : ℕ :=
  match top_n with
  | none => len
  | some n => if n = 0 then len else n

/-- The response-reconstruction loop of `rerank`: for each response entry,
at 1-based `rank` in response order, keep it iff its index is a valid
position into the submitted results, copying that result and attaching the
relevance score (`rerank_score`) and `rank` (`rerank_position`). -/
def rerankPost {α : Type} (results : List α) (respData : List RerankEntry) :
    List (α × ℕ × ℚ) :=
  respData.enum.filterMap (fun p =>
    if h : 0 ≤ p.2.index ∧ p.2.index.toNat < results.length then
      some (results.get ⟨p.2.index.toNat, h.2⟩, p.1 + 1, p.2.score)
    else none)

/-- `PineconeCohereReranker.rerank`: empty-input guard, document-pair
construction (position index as id, stripped content), resolution of
`top_n` capped at the number of documents, remote call, and index-based
reconstruction. -/
def rerank {α : Type} (contentOf : α → String)
    (remote : String → List (String × String) → ℕ → List RerankEntry)
    (query : String) (results : List α) (top_n : Option ℕ) :
    List (α × ℕ × ℚ) :=
  if results.isEmpty then []
  else
    rerankPost results
      (remote query
        (results.enum.map (fun p => (toString p.1, (contentOf p.2).trim)))
        (min (resolveTopN top_n results.length) results.length))

end PineconeCohereReranker

/-! ### Configuration and orchestration (`rag_chat_agent.py`) -/

/-- The retrieval-relevant fields of the `RAGConfig` dataclass. -/
structure RAGConfig where
  vector_weight : ℚ
  keyword_weight : ℚ
  rrf_k : ℕ
  enable_reranking : Bool
deriving DecidableEq, Repr

/-- The `RAGConfig` dataclass defaults: `vector_weight = 0.5`,
`keyword_weight = 0.5`, `rrf_k = 20`, `enable_reranking = True`. -/
def RAGConfig.mkDefault : RAGConfig := ⟨1/2, 1/2, 20, true⟩

namespace EnhancedHybridRetriever

/-- Default of the `rrf_k` parameter of `EnhancedHybridRetriever.__init__`
(`rrf_k: int = 60`). -/
def defaultRrfK : ℕ := 60

/-- `EnhancedHybridRetriever.search`, from the two component result lists
onward (the vector and keyword retrievals are the independently modelled
components above): weighted-RRF fusion of the two lists with the
configured weights, then the optional external reranker, applied only when
it is present and the fused list is nonempty
(`if self.external_reranker and reranked_results`). -/
def search (rrf_k vector_weight keyword_weight : ℚ)
    (vector_results keyword_results : List RRFResult) (top_k : ℕ)
    (external_reranker :
      Option (String → List (RRFResult × ℚ) → ℕ → List (RRFResult × ℚ)))
    (query : String) : Except RetrievalError (List (RRFResult × ℚ)) :=
  match RRFReranker.rerank_with_weights rrf_k
      [vector_results, keyword_results]
      [vector_weight, keyword_weight] top_k with
  | .error e => .error e
  | .ok reranked_results =>
    .ok (match external_reranker with
      | some f =>
        if reranked_results ≠ [] then f query reranked_results top_k
        else reranked_results
      | none => reranked_results)

end EnhancedHybridRetriever

namespace RetrievalManager

/-- The external-reranker resolution of `RetrievalManager.__init__`: no
reranker when reranking is disabled or the stripped key is empty;
otherwise the constructed reranker, with any construction failure caught
(`except Exception: external_reranker = None`) and mapped to the disabled
state. The constructor is the injected fallible capability. -/
def resolveExternalReranker {H : Type} (enable_reranking : Bool)
    (pinecone_key : String) (construct : String → Except String H) :
    Option H :=
  if enable_reranking then
    if pinecone_key.trim ≠ "" then
      match construct pinecone_key.trim with
      | .ok r => some r
      | .error _ => none
    else none
  else none

/-- The fusion constant the manager wires into the hybrid retriever:
always the configured value (`rrf_k=self.config.rrf_k`). -/
def fusionK (config : RAGConfig) : ℕ := config.rrf_k

end RetrievalManager

/-! ### Theorems -/

theorem insertDescBy_perm {α K : Type} [LinearOrder K] (key : α → K) (x : α) :
    ∀ l : List α, insertDescBy key x l ~ x :: l := by
  intro l
  induction l with
  | nil => simp [insertDescBy]
  | cons y ys ih =>
    by_cases h : key x < key y
    · simp only [insertDescBy, if_pos h]
      exact (ih.cons y).trans (List.Perm.swap x y ys)
    · simp [insertDescBy, if_neg h]

theorem sortDescBy_perm {α K : Type} [LinearOrder K] (key : α → K) :
    ∀ l : List α, sortDescBy key l ~ l := by
  intro l
  induction l with
  | nil => simp [sortDescBy]
  | cons x xs ih =>
    exact (insertDescBy_perm key x (sortDescBy key xs)).trans (ih.cons x)

theorem mem_insertDescBy {α K : Type} [LinearOrder K] {key : α → K} {x a : α}
    {l : List α} : a ∈ insertDescBy key x l ↔ a = x ∨ a ∈ l := by
  constructor
  · intro h
    have := (insertDescBy_perm key x l).mem_iff.mp h
    simpa using this
  · intro h
    apply (insertDescBy_perm key x l).mem_iff.mpr
    simpa using h

theorem insertDescBy_sorted {α K : Type} [LinearOrder K] {key : α → K} (x : α)
    {l : List α} (hl : l.Pairwise (fun a b => key b ≤ key a)) :
    (insertDescBy key x l).Pairwise (fun a b => key b ≤ key a) := by
  induction l with
  | nil => simp [insertDescBy]
  | cons y ys ih =>
    rcases List.pairwise_cons.mp hl with ⟨hy, hys⟩
    by_cases h : key x < key y
    · simp only [insertDescBy, if_pos h]
      refine List.pairwise_cons.mpr ⟨?_, ih hys⟩
      intro a ha
      rcases mem_insertDescBy.mp ha with rfl | ha
      · exact le_of_lt h
      · exact hy a ha
    · simp only [insertDescBy, if_neg h]
      refine List.pairwise_cons.mpr ⟨?_, hl⟩
      intro a ha
      rcases List.mem_cons.mp ha with rfl | ha
      · exact not_lt.mp h
      · exact le_trans (hy a ha) (not_lt.mp h)

theorem sortDescBy_sorted {α K : Type} [LinearOrder K] (key : α → K) :
    ∀ l : List α, (sortDescBy key l).Pairwise (fun a b => key b ≤ key a) := by
  intro l
  induction l with
  | nil => simp [sortDescBy]
  | cons x xs ih => exact insertDescBy_sorted x ih

theorem sublist_insertDescBy {α K : Type} [LinearOrder K] (key : α → K) (x : α) :
    ∀ {s l : List α}, s <+ l → s <+ insertDescBy key x l := by
  intro s l h
  induction l generalizing s with
  | nil =>
    cases h
    exact List.nil_sublist _
  | cons y ys ih =>
    by_cases hxy : key x < key y
    · simp only [insertDescBy, if_pos hxy]
      cases h with
      | cons _ h' => exact (ih h').cons y
      | cons₂ _ h' => exact (ih h').cons₂ y
    · simp only [insertDescBy, if_neg hxy]
      exact h.cons x

/-- Stability of `insertDescBy`: inserting `x` into a descending-sorted list
puts it in front of every element already present whose key is `≤ key x`. -/
theorem insertDescBy_stable {α K : Type} [LinearOrder K] {key : α → K} (x b : α)
    {l : List α} (hl : l.Pairwise (fun a c => key c ≤ key a))
    (hb : b ∈ l) (hkey : key b ≤ key x) : [x, b] <+ insertDescBy key x l := by
  induction l with
  | nil => cases hb
  | cons y ys ih =>
    rcases List.pairwise_cons.mp hl with ⟨hy, hys⟩
    by_cases h : key x < key y
    · simp only [insertDescBy, if_pos h]
      rcases List.mem_cons.mp hb with rfl | hb
      · exact absurd (lt_of_le_of_lt hkey h) (lt_irrefl _)
      · exact (ih hys hb).cons y
    · simp only [insertDescBy, if_neg h]
      exact (List.singleton_sublist.mpr hb).cons₂ x

/-- Stability of `sortDescBy`: a pair that appears in input order with the
earlier element's key at least the later one's key stays in that order. -/
theorem sortDescBy_stable {α K : Type} [LinearOrder K] {key : α → K} {a b : α} :
    ∀ {l : List α}, [a, b] <+ l → key b ≤ key a → [a, b] <+ sortDescBy key l := by
  intro l h hkey
  induction l with
  | nil => cases h
  | cons y ys ih =>
    cases h with
    | cons _ h' =>
      exact sublist_insertDescBy key y (ih h')
    | cons₂ _ h' =>
      have hb : b ∈ sortDescBy key ys :=
        (sortDescBy_perm key ys).mem_iff.mpr (h'.subset (List.mem_singleton_self b))
      exact insertDescBy_stable a b (sortDescBy_sorted key ys) hb hkey

theorem length_sortDescBy {α K : Type} [LinearOrder K] (key : α → K)
    (l : List α) : (sortDescBy key l).length = l.length :=
  (sortDescBy_perm key l).length_eq

theorem mem_sortDescBy {α K : Type} [LinearOrder K] {key : α → K} {a : α}
    {l : List α} : a ∈ sortDescBy key l ↔ a ∈ l :=
  (sortDescBy_perm key l).mem_iff

theorem rrfContentScoreFrom_eq (k : ℚ) (c : String) :
    ∀ (l : List RRFResult) (n : ℕ),
      (((l.enumFrom n).filter (fun p => p.2.content = c)).map
        (fun p => 1 / ((p.1 : ℚ) + 1 + k))).sum = rrfContentScoreFrom k c l n := by
  intro l
  induction l with
  | nil => intro n; simp [rrfContentScoreFrom]
  | cons r rs ih =>
    intro n
    by_cases h : r.content = c
    · simp [rrfContentScoreFrom, List.enumFrom, h, List.filter_cons, ← ih (n + 1)]
    · simp [rrfContentScoreFrom, List.enumFrom, h, List.filter_cons, ← ih (n + 1)]

theorem rrfContentScore_eq_from (k : ℚ) (c : String) (l : List RRFResult) :
    rrfContentScore k c l = rrfContentScoreFrom k c l 0 := by
  unfold rrfContentScore
  rw [show l.enum = l.enumFrom 0 from rfl]
  exact rrfContentScoreFrom_eq k c l 0

theorem lookupScore_addEntry (acc : List (RRFResult × ℚ)) (r : RRFResult)
    (v : ℚ) (c : String) :
    RRFReranker.lookupScore (RRFReranker.addEntry acc r v) c =
      RRFReranker.lookupScore acc c + (if r.content = c then v else 0) := by
  induction acc with
  | nil =>
    by_cases h : r.content = c <;>
      simp [RRFReranker.addEntry, RRFReranker.lookupScore, h]
  | cons p rest ih =>
    obtain ⟨r', v'⟩ := p
    by_cases h1 : r'.content = r.content
    · simp only [RRFReranker.addEntry, if_pos h1, RRFReranker.lookupScore]
      by_cases h2 : r'.content = c
      · rw [if_pos h2, if_pos h2, if_pos (h1 ▸ h2)]
      · rw [if_neg h2, if_neg h2, if_neg (fun hc => h2 (h1.trans hc)), add_zero]
    · simp only [RRFReranker.addEntry, if_neg h1, RRFReranker.lookupScore]
      by_cases h2 : r'.content = c
      · rw [if_pos h2, if_pos h2,
          if_neg (fun hc => h1 (h2.trans hc.symm)), add_zero]
      · rw [if_neg h2, if_neg h2, ih]

theorem lookupScore_scoreList (k w : ℚ) (c : String) :
    ∀ (l : List RRFResult) (rank : ℕ) (acc : List (RRFResult × ℚ)),
      RRFReranker.lookupScore (RRFReranker.scoreList k w l rank acc) c =
        RRFReranker.lookupScore acc c + w * rrfContentScoreFrom k c l rank := by
  intro l
  induction l with
  | nil => intro rank acc; simp [RRFReranker.scoreList, rrfContentScoreFrom]
  | cons r rs ih =>
    intro rank acc
    simp only [RRFReranker.scoreList, rrfContentScoreFrom]
    rw [ih, lookupScore_addEntry]
    by_cases h : r.content = c
    · rw [if_pos h, if_pos h]; ring
    · rw [if_neg h, if_neg h]; ring

theorem lookupScore_accumulate (k : ℚ) (lists : List (List RRFResult))
    (weights : List ℚ) (c : String) :
    RRFReranker.lookupScore (RRFReranker.accumulate k lists weights) c =
      rrfSpecScore k lists weights c := by
  unfold RRFReranker.accumulate rrfSpecScore
  have main : ∀ (pairs : List (List RRFResult × ℚ)) (acc : List (RRFResult × ℚ)),
      RRFReranker.lookupScore
        (pairs.foldl (fun acc lw => RRFReranker.scoreList k lw.2 lw.1 0 acc) acc) c =
        RRFReranker.lookupScore acc c +
          (pairs.map (fun lw => lw.2 * rrfContentScore k c lw.1)).sum := by
    intro pairs
    induction pairs with
    | nil => intro acc; simp
    | cons lw rest ih =>
      intro acc
      simp only [List.foldl_cons, List.map_cons, List.sum_cons]
      rw [ih, lookupScore_scoreList, rrfContentScore_eq_from]
      ring
  have := main (lists.zip weights) []
  simpa [RRFReranker.lookupScore] using this

/-- C1: the cumulative fused score that `rerank_with_weights` assigns to a
content string `c` is the sum, over every list `i` and every 1-based rank
`r` at which `c` appears in list `i`, of `weight_i * (1 / (r + k))`; a
document present in both the vector list and the keyword list (once each)
receives `vector_weight/(rank_v + k) + keyword_weight/(rank_k + k)`; and on
lists `A = [d1, d2]`, `B = [d2, d3]` with weights `[1, 1]` and `k = 0` the
scores are `d1 = 1`, `d2 = 3/2`, `d3 = 1/2` with output order
`d2, d1, d3`. -/
theorem rrf_weighted_fusion_score (k : ℚ) (lists : List (List RRFResult))
    (weights : List ℚ) (c : String)
    (hlen : lists.length = weights.length)
    (hw : ∀ w ∈ weights, 0 < w) :
    RRFReranker.lookupScore (RRFReranker.accumulate k lists weights) c =
      rrfSpecScore k lists weights c ∧
    (∀ (A B : List RRFResult) (vw kw : ℚ) (rv rk : ℕ) (a bb : RRFResult),
      A.enum.filter (fun p => p.2.content = c) = [(rv, a)] →
      B.enum.filter (fun p => p.2.content = c) = [(rk, bb)] →
      RRFReranker.lookupScore (RRFReranker.accumulate k [A, B] [vw, kw]) c =
        vw * (1 / ((rv : ℚ) + 1 + k)) + kw * (1 / ((rk : ℚ) + 1 + k))) ∧
    RRFReranker.rerank_with_weights 0 [[exD1, exD2], [exD2, exD3]] [1, 1] 3 =
      .ok [(exD2, 3/2), (exD1, 1), (exD3, 1/2)] := by
  refine ⟨lookupScore_accumulate k lists weights c, ?_, by
    norm_num [RRFReranker.rerank_with_weights, RRFReranker.accumulate,
      RRFReranker.scoreList, RRFReranker.addEntry, sortDescBy, insertDescBy,
      exD1, exD2, exD3]⟩
  intro A B vw kw rv rk a bb hA hB
  rw [lookupScore_accumulate]
  simp [rrfSpecScore, rrfContentScore, hA, hB]

/-- Witness for `rrf_weighted_fusion_score`, instantiated at the worked
example with `c = "d2"`. -/
theorem rrf_weighted_fusion_score_witness :
    RRFReranker.lookupScore
      (RRFReranker.accumulate 0 [[exD1, exD2], [exD2, exD3]] [1, 1]) "d2" =
      rrfSpecScore 0 [[exD1, exD2], [exD2, exD3]] [1, 1] "d2" :=
  (rrf_weighted_fusion_score 0 [[exD1, exD2], [exD2, exD3]] [1, 1] "d2"
    (by decide) (by norm_num)).1

/-- C8: when the number of ranked lists differs from the number of weights,
`rerank_with_weights` fails with the configuration error (the raised
`ValueError`) and produces no scored output, so no scoring occurs. -/
theorem rrf_mismatch_configuration_error (k : ℚ)
    (lists : List (List RRFResult)) (weights : List ℚ) (top_k : ℕ)
    (h : lists.length ≠ weights.length) :
    RRFReranker.rerank_with_weights k lists weights top_k =
      .error .configurationError := by
  simp [RRFReranker.rerank_with_weights, h]

/-- Witness for `rrf_mismatch_configuration_error`: one list, no weights. -/
theorem rrf_mismatch_configuration_error_witness :
    RRFReranker.rerank_with_weights 0 [[exD1]] [] 5 =
      .error .configurationError :=
  rrf_mismatch_configuration_error 0 [[exD1]] [] 5 (by decide)

theorem bm25_foldl_eq (dt : List (List String)) (i : ℕ) :
    ∀ (q : List String) (init : ℝ),
      q.foldl (fun score term =>
        if term ∈ dt.getD i [] then
          score + KeywordRetriever.idf dt term * KeywordRetriever.tf_component dt i term
        else score) init = init + bm25SpecScore dt q i := by
  intro q
  induction q with
  | nil => intro init; simp [bm25SpecScore]
  | cons t ts ih =>
    intro init
    by_cases h : t ∈ dt.getD i []
    · simp only [List.foldl_cons, if_pos h, ih, bm25SpecScore,
        List.filter_cons, decide_eq_true h]
      simp [add_assoc]
    · simp only [List.foldl_cons, if_neg h, ih, bm25SpecScore,
        List.filter_cons, decide_eq_false h]
      simp

theorem calculate_bm25_score_eq_spec (dt : List (List String))
    (q : List String) (i : ℕ) :
    KeywordRetriever.calculate_bm25_score dt q i = bm25SpecScore dt q i := by
  unfold KeywordRetriever.calculate_bm25_score
  rw [bm25_foldl_eq, zero_add]

/-- C2: the BM25 score of a document is the sum, over query terms present in
the document, of `ln((N - df + 0.5)/(df + 0.5)) * tf*(k1+1)/(tf + k1*(1 - b
+ b*len/avg_len))`, with `k1 = 1.5` and `b = 0.75`; a query term absent
from the document contributes exactly zero to the score. -/
theorem bm25_score_spec (dt : List (List String)) (q : List String) (i : ℕ) :
    KeywordRetriever.calculate_bm25_score dt q i = bm25SpecScore dt q i ∧
    KeywordRetriever.k1 = 1.5 ∧
    KeywordRetriever.b = 0.75 ∧
    (∀ (t : String) (q1 q2 : List String), t ∉ dt.getD i [] →
      KeywordRetriever.calculate_bm25_score dt (q1 ++ t :: q2) i =
        KeywordRetriever.calculate_bm25_score dt (q1 ++ q2) i) := by
  refine ⟨calculate_bm25_score_eq_spec dt q i, rfl, rfl, ?_⟩
  intro t q1 q2 ht
  rw [calculate_bm25_score_eq_spec, calculate_bm25_score_eq_spec]
  unfold bm25SpecScore
  rw [List.filter_append, List.filter_append, List.filter_cons,
    decide_eq_false ht]
  simp

/-- Witness for `bm25_score_spec` on a one-document corpus, together with
the zero contribution of the absent term `"bb"`. -/
theorem bm25_score_spec_witness :
    KeywordRetriever.calculate_bm25_score [["aa"]] ["aa"] 0 =
      bm25SpecScore [["aa"]] ["aa"] 0 ∧
    KeywordRetriever.calculate_bm25_score [["aa"]] ["bb"] 0 =
      KeywordRetriever.calculate_bm25_score [["aa"]] [] 0 :=
  ⟨(bm25_score_spec [["aa"]] ["aa"] 0).1,
   (bm25_score_spec [["aa"]] ["aa"] 0).2.2.2 "bb" [] [] (by decide)⟩

/-! Lemmas about the scoring pipeline of `KeywordRetriever.search`. -/

theorem mem_doc_scores {dt : List (List String)} {q : List String}
    {p : ℕ × ℝ} :
    p ∈ KeywordRetriever.doc_scores dt q ↔
      p.1 < dt.length ∧
      p.2 = KeywordRetriever.calculate_bm25_score dt q p.1 ∧ 0 < p.2 := by
  obtain ⟨a, s⟩ := p
  unfold KeywordRetriever.doc_scores
  rw [List.mem_filter]
  constructor
  · rintro ⟨hmem, hpos⟩
    rw [List.mem_map] at hmem
    obtain ⟨i, hi, hip⟩ := hmem
    rw [List.mem_range] at hi
    injection hip with hia his
    subst hia
    subst his
    exact ⟨hi, rfl, of_decide_eq_true hpos⟩
  · rintro ⟨h1, h2, h3⟩
    refine ⟨List.mem_map.mpr ⟨a, List.mem_range.mpr h1, ?_⟩, decide_eq_true h3⟩
    rw [Prod.mk.injEq]
    exact ⟨rfl, h2.symm⟩

theorem calculate_bm25_score_nil_query (dt : List (List String)) (i : ℕ) :
    KeywordRetriever.calculate_bm25_score dt [] i = 0 := rfl

theorem doc_scores_nil_query (dt : List (List String)) :
    KeywordRetriever.doc_scores dt [] = [] := by
  unfold KeywordRetriever.doc_scores
  rw [List.filter_eq_nil_iff]
  intro p hp
  rw [List.mem_map] at hp
  obtain ⟨i, _, hip⟩ := hp
  subst hip
  simp [calculate_bm25_score_nil_query]

theorem doc_scores_nil_corpus (q : List String) :
    KeywordRetriever.doc_scores [] q = [] := by
  unfold KeywordRetriever.doc_scores
  simp

/-- C7: an empty corpus or an empty tokenized query yields an empty result
list; the average-length computation of `_build_index` is guarded on an
empty corpus; and whenever the division `doc_length / avg_doc_length` of
`_calculate_bm25_score` is reachable (some term of some document is looked
up, which requires that document to be nonempty), the average document
length is strictly positive, so no division by zero occurs. -/
theorem avg_doc_length_pos_of_mem {dt : List (List String)} {i : ℕ}
    {t : String} (hi : i < dt.length) (ht : t ∈ dt.getD i []) :
    0 < KeywordRetriever.avg_doc_length dt := by
  have hne : dt ≠ [] := by
    intro h; rw [h] at hi; exact absurd hi (by simp)
  have hdoc : dt.getD i [] ∈ dt := by
    rw [List.getD_eq_getElem?_getD, List.getElem?_eq_getElem hi]
    exact List.getElem_mem _
  have hlen1 : 1 ≤ (dt.getD i []).length :=
    List.length_pos.mpr (List.ne_nil_of_mem ht)
  have hsum : (dt.getD i []).length ≤ (dt.map List.length).sum :=
    List.single_le_sum (by intro x _; exact Nat.zero_le x) _
      (List.mem_map.mpr ⟨_, hdoc, rfl⟩)
  have hsum1 : 1 ≤ (dt.map List.length).sum := le_trans hlen1 hsum
  unfold KeywordRetriever.avg_doc_length
  rw [if_neg hne]
  apply div_pos
  · exact_mod_cast Nat.lt_of_lt_of_le Nat.zero_lt_one hsum1
  · exact_mod_cast List.length_pos.mpr hne

theorem keyword_search_guards (dt : List (List String)) (q : List String)
    (top_k : ℕ) :
    (dt = [] → KeywordRetriever.searchIdx dt q top_k = []) ∧
    (q = [] → KeywordRetriever.searchIdx dt q top_k = []) ∧
    KeywordRetriever.avg_doc_length [] = 0 ∧
    (∀ (i : ℕ) (t : String), i < dt.length → t ∈ dt.getD i [] →
      0 < KeywordRetriever.avg_doc_length dt) := by
  refine ⟨?_, ?_, by simp [KeywordRetriever.avg_doc_length], ?_⟩
  · intro h; simp [KeywordRetriever.searchIdx, h]
  · intro h
    unfold KeywordRetriever.searchIdx
    by_cases hdt : dt = [] <;> simp [hdt, h]
  · intro i t hi ht
    exact avg_doc_length_pos_of_mem hi ht

theorem term_doc_freq_le_length (dt : List (List String)) (t : String) :
    KeywordRetriever.term_doc_freq dt t ≤ dt.length :=
  List.length_filter_le _ dt

theorem one_le_term_doc_freq {dt : List (List String)} {t : String} {i : ℕ}
    (hi : i < dt.length) (ht : t ∈ dt.getD i []) :
    1 ≤ KeywordRetriever.term_doc_freq dt t := by
  have hdoc : dt.getD i [] ∈ dt := by
    rw [List.getD_eq_getElem?_getD, List.getElem?_eq_getElem hi]
    exact List.getElem_mem _
  have : dt.getD i [] ∈ dt.filter (fun d => decide (t ∈ d)) :=
    List.mem_filter.mpr ⟨hdoc, decide_eq_true ht⟩
  exact List.length_pos.mpr (List.ne_nil_of_mem this)

/-- The IDF factor is strictly negative for a term contained in more than
half of the indexed documents. -/
theorem idf_neg_of_common {dt : List (List String)} {t : String}
    (h1 : 1 ≤ KeywordRetriever.term_doc_freq dt t)
    (h2 : dt.length < 2 * KeywordRetriever.term_doc_freq dt t) :
    KeywordRetriever.idf dt t < 0 := by
  have hle : (KeywordRetriever.term_doc_freq dt t : ℝ) ≤ (dt.length : ℝ) := by
    exact_mod_cast term_doc_freq_le_length dt t
  have hdf0 : (0 : ℝ) < (KeywordRetriever.term_doc_freq dt t : ℝ) := by
    exact_mod_cast h1
  have hN2 : (dt.length : ℝ) < 2 * (KeywordRetriever.term_doc_freq dt t : ℝ) := by
    exact_mod_cast h2
  unfold KeywordRetriever.idf
  apply Real.log_neg
  · apply div_pos <;> linarith
  · rw [div_lt_one (by linarith)]
    linarith

/-- The TF factor is strictly positive for a term present in the document,
provided the corpus has positive average length. -/
theorem tf_component_pos {dt : List (List String)} {i : ℕ} {t : String}
    (ht : t ∈ dt.getD i [])
    (havg : 0 < KeywordRetriever.avg_doc_length dt) :
    0 < KeywordRetriever.tf_component dt i t := by
  have htf : (0 : ℝ) < ((dt.getD i []).count t : ℝ) := by
    exact_mod_cast List.count_pos_iff.mpr ht
  have havgR : (0 : ℝ) < ((KeywordRetriever.avg_doc_length dt : ℚ) : ℝ) := by
    exact_mod_cast havg
  have hdl : (0 : ℝ) ≤ ((dt.getD i []).length : ℝ) := by positivity
  have hquot : (0 : ℝ) ≤ ((dt.getD i []).length : ℝ) /
      ((KeywordRetriever.avg_doc_length dt : ℚ) : ℝ) :=
    div_nonneg hdl (le_of_lt havgR)
  unfold KeywordRetriever.tf_component KeywordRetriever.k1 KeywordRetriever.b
  apply div_pos
  · nlinarith
  · nlinarith

theorem sum_neg_of_mem_neg {l : List ℝ} (h : ∀ x ∈ l, x < 0) (hne : l ≠ []) :
    l.sum < 0 := by
  induction l with
  | nil => exact absurd rfl hne
  | cons x xs ih =>
    rw [List.sum_cons]
    have hx : x < 0 := h x (List.mem_cons_self x xs)
    by_cases hxs : xs = []
    · subst hxs; simpa using hx
    · have := ih (fun y hy => h y (List.mem_cons_of_mem x hy)) hxs
      linarith

/-- C10: if every query term occurring in document `i` appears in more than
half of the indexed documents, and at least one query term does occur in
document `i`, then the document's BM25 score is strictly negative (the IDF
factor is not floored at zero) and the `score > 0` filter excludes the
document from keyword search results even though it contains query
terms. -/
theorem bm25_common_terms_negative (dt : List (List String))
    (q : List String) (i : ℕ) (hi : i < dt.length)
    (hdf : ∀ t ∈ q, t ∈ dt.getD i [] →
      dt.length < 2 * KeywordRetriever.term_doc_freq dt t)
    (hex : ∃ t ∈ q, t ∈ dt.getD i []) :
    KeywordRetriever.calculate_bm25_score dt q i < 0 ∧
    ∀ (top_k : ℕ) (p : ℕ × ℝ),
      p ∈ KeywordRetriever.searchIdx dt q top_k → p.1 ≠ i := by
  obtain ⟨t0, ht0q, ht0d⟩ := hex
  have havg : 0 < KeywordRetriever.avg_doc_length dt :=
    avg_doc_length_pos_of_mem hi ht0d
  have hneg : KeywordRetriever.calculate_bm25_score dt q i < 0 := by
    rw [calculate_bm25_score_eq_spec]
    unfold bm25SpecScore
    apply sum_neg_of_mem_neg
    · intro x hx
      rw [List.mem_map] at hx
      obtain ⟨t, ht, rfl⟩ := hx
      rw [List.mem_filter] at ht
      obtain ⟨htq, htd⟩ := ht
      have htd : t ∈ dt.getD i [] := of_decide_eq_true htd
      exact mul_neg_of_neg_of_pos
        (idf_neg_of_common (one_le_term_doc_freq hi htd) (hdf t htq htd))
        (tf_component_pos htd havg)
    · have : t0 ∈ q.filter (fun t => decide (t ∈ dt.getD i [])) :=
        List.mem_filter.mpr ⟨ht0q, decide_eq_true ht0d⟩
      intro hmap
      rw [List.map_eq_nil_iff] at hmap
      rw [hmap] at this
      exact absurd this (List.not_mem_nil t0)
  refine ⟨hneg, ?_⟩
  intro top_k p hp
  unfold KeywordRetriever.searchIdx at hp
  by_cases hdt : dt = []
  · rw [if_pos hdt] at hp; exact absurd hp (List.not_mem_nil p)
  rw [if_neg hdt] at hp
  by_cases hq : q = []
  · rw [if_pos hq] at hp; exact absurd hp (List.not_mem_nil p)
  rw [if_neg hq] at hp
  have hp1 : p ∈ KeywordRetriever.ranked dt q := List.mem_of_mem_take hp
  have hp2 : p ∈ KeywordRetriever.doc_scores dt q := mem_sortDescBy.mp hp1
  obtain ⟨_, hscore, hpos⟩ := mem_doc_scores.mp hp2
  intro hpi
  rw [hpi] at hscore
  rw [hscore] at hpos
  linarith

/-- Witness for `bm25_common_terms_negative`: the term `"aa"` appears in all
three documents, so its document frequency 3 exceeds half the corpus size
3, and document 0 contains it. -/
theorem bm25_common_terms_negative_witness :
    KeywordRetriever.calculate_bm25_score [["aa"], ["aa"], ["aa"]] ["aa"] 0 < 0 ∧
    ∀ (top_k : ℕ) (p : ℕ × ℝ),
      p ∈ KeywordRetriever.searchIdx [["aa"], ["aa"], ["aa"]] ["aa"] top_k →
        p.1 ≠ 0 :=
  bm25_common_terms_negative [["aa"], ["aa"], ["aa"]] ["aa"] 0
    (by decide) (by decide) (by decide)

theorem ranked_nil_query (dt : List (List String)) :
    KeywordRetriever.ranked dt [] = [] := by
  unfold KeywordRetriever.ranked
  rw [doc_scores_nil_query]
  rfl

theorem ranked_nil_corpus (q : List String) :
    KeywordRetriever.ranked [] q = [] := by
  unfold KeywordRetriever.ranked
  rw [doc_scores_nil_corpus]
  rfl

/-- The early-return guards of `search` never change its value: with an
empty corpus or an empty tokenized query the scored list is empty anyway,
so `search` always returns the sorted positive-score list truncated to
`top_k`. -/
theorem searchIdx_eq_take (dt : List (List String)) (q : List String)
    (top_k : ℕ) :
    KeywordRetriever.searchIdx dt q top_k =
      (KeywordRetriever.ranked dt q).take top_k := by
  unfold KeywordRetriever.searchIdx
  by_cases hdt : dt = []
  · subst hdt
    rw [if_pos rfl, ranked_nil_corpus]
    simp
  rw [if_neg hdt]
  by_cases hq : q = []
  · subst hq
    rw [if_pos rfl, ranked_nil_query]
    simp
  rw [if_neg hq]

theorem pair_sublist_range {i j N : ℕ} (hij : i < j) (hj : j < N) :
    [i, j] <+ List.range N := by
  induction N with
  | zero => exact absurd hj (Nat.not_lt_zero j)
  | succ n ih =>
    rw [List.range_succ]
    by_cases h : j < n
    · exact (ih h).trans (List.sublist_append_left _ _)
    · have hjn : j = n := by omega
      subst hjn
      exact List.Sublist.append
        (List.singleton_sublist.mpr (List.mem_range.mpr hij))
        (List.Sublist.refl [j])

/-- C4: keyword search returns exactly the documents whose BM25 score is
strictly positive — every returned pair is a valid document index carrying
its true, positive score; the output is sorted descending by score; its
length is the number of positive-scoring documents truncated to `top_k`;
absent truncation every positive-scoring document is returned; equal-score
ties keep original document insertion order (stability of the sort); and a
document containing none of the query terms scores exactly 0 and never
appears in the output. -/
theorem keyword_search_characterization (dt : List (List String))
    (q : List String) (top_k : ℕ) :
    (∀ p ∈ KeywordRetriever.searchIdx dt q top_k,
      p.1 < dt.length ∧
      p.2 = KeywordRetriever.calculate_bm25_score dt q p.1 ∧ 0 < p.2) ∧
    (KeywordRetriever.searchIdx dt q top_k).Pairwise
      (fun p r => r.2 ≤ p.2) ∧
    (KeywordRetriever.searchIdx dt q top_k).length =
      min top_k (KeywordRetriever.doc_scores dt q).length ∧
    ((KeywordRetriever.doc_scores dt q).length ≤ top_k →
      ∀ i, i < dt.length →
        0 < KeywordRetriever.calculate_bm25_score dt q i →
        (i, KeywordRetriever.calculate_bm25_score dt q i) ∈
          KeywordRetriever.searchIdx dt q top_k) ∧
    (∀ i j, i < j → j < dt.length →
      KeywordRetriever.calculate_bm25_score dt q i =
        KeywordRetriever.calculate_bm25_score dt q j →
      0 < KeywordRetriever.calculate_bm25_score dt q i →
      [(i, KeywordRetriever.calculate_bm25_score dt q i),
       (j, KeywordRetriever.calculate_bm25_score dt q j)] <+
        KeywordRetriever.ranked dt q) ∧
    (∀ i, (∀ t ∈ q, t ∉ dt.getD i []) →
      KeywordRetriever.calculate_bm25_score dt q i = 0 ∧
      ∀ p ∈ KeywordRetriever.searchIdx dt q top_k, p.1 ≠ i) := by
  have hsound : ∀ p ∈ KeywordRetriever.searchIdx dt q top_k,
      p.1 < dt.length ∧
      p.2 = KeywordRetriever.calculate_bm25_score dt q p.1 ∧ 0 < p.2 := by
    intro p hp
    rw [searchIdx_eq_take] at hp
    exact mem_doc_scores.mp (mem_sortDescBy.mp (List.mem_of_mem_take hp))
  refine ⟨hsound, ?_, ?_, ?_, ?_, ?_⟩
  · rw [searchIdx_eq_take]
    exact List.Pairwise.sublist (List.take_sublist _ _)
      (sortDescBy_sorted (fun p : ℕ × ℝ => p.2) (KeywordRetriever.doc_scores dt q))
  · rw [searchIdx_eq_take, List.length_take]
    unfold KeywordRetriever.ranked
    rw [length_sortDescBy]
  · intro hlen i hi hpos
    rw [searchIdx_eq_take]
    have hlen2 : (KeywordRetriever.ranked dt q).length ≤ top_k := by
      unfold KeywordRetriever.ranked
      rw [length_sortDescBy]
      exact hlen
    rw [List.take_of_length_le hlen2]
    exact mem_sortDescBy.mpr (mem_doc_scores.mpr ⟨hi, rfl, hpos⟩)
  · intro i j hij hj heq hpos
    have h1 : [i, j] <+ List.range dt.length := pair_sublist_range hij hj
    have h2 := h1.map (fun n => (n, KeywordRetriever.calculate_bm25_score dt q n))
    rw [List.map_cons, List.map_cons, List.map_nil] at h2
    have h3 : [(i, KeywordRetriever.calculate_bm25_score dt q i),
        (j, KeywordRetriever.calculate_bm25_score dt q j)] <+
        KeywordRetriever.doc_scores dt q := by
      unfold KeywordRetriever.doc_scores
      have := h2.filter (fun p : ℕ × ℝ => decide (0 < p.2))
      rw [List.filter_cons, List.filter_cons] at this
      rw [decide_eq_true hpos, decide_eq_true (heq ▸ hpos)] at this
      simpa using this
    exact sortDescBy_stable h3 (le_of_eq heq.symm)
  · intro i hti
    have hzero : KeywordRetriever.calculate_bm25_score dt q i = 0 := by
      rw [calculate_bm25_score_eq_spec]
      unfold bm25SpecScore
      have : q.filter (fun t => decide (t ∈ dt.getD i [])) = [] := by
        rw [List.filter_eq_nil_iff]
        intro t ht
        simpa using hti t ht
      rw [this]
      rfl
    refine ⟨hzero, ?_⟩
    intro p hp hpi
    obtain ⟨_, hs, hpos⟩ := hsound p hp
    rw [hpi, hzero] at hs
    rw [hs] at hpos
    linarith

/-- Witness for `keyword_search_characterization`: the truncation-length
identity at a concrete corpus, and the zero score of a document containing
none of the query terms, with the inner hypothesis discharged. -/
theorem keyword_search_characterization_witness :
    (KeywordRetriever.searchIdx [["aa"], ["bb"], ["cc"]] ["aa"] 5).length =
      min 5 (KeywordRetriever.doc_scores [["aa"], ["bb"], ["cc"]] ["aa"]).length ∧
    KeywordRetriever.calculate_bm25_score [["aa"], ["bb"], ["cc"]] ["bb"] 0 = 0 :=
  ⟨(keyword_search_characterization [["aa"], ["bb"], ["cc"]] ["aa"] 5).2.2.1,
   ((keyword_search_characterization [["aa"], ["bb"], ["cc"]] ["bb"] 5).2.2.2.2.2
     0 (by decide)).1⟩

/-- Witness for `keyword_search_guards` (the hypotheses of the inner
implications are discharged at a one-term document). -/
theorem keyword_search_guards_witness :
    KeywordRetriever.searchIdx [] ["aa"] 3 = [] ∧
    KeywordRetriever.searchIdx [["aa"]] [] 3 = [] ∧
    0 < KeywordRetriever.avg_doc_length [["aa"]] :=
  ⟨(keyword_search_guards [] ["aa"] 3).1 rfl,
   (keyword_search_guards [["aa"]] [] 3).2.1 rfl,
   (keyword_search_guards [["aa"]] ["aa"] 3).2.2.2 0 "aa" (by decide) (by decide)⟩

/-! ### C5: vector-adapter deduplication -/

theorem decide_not_mem_cons (a it : String) (seen : List String) :
    decide (a ∉ it :: seen) = (decide (a ≠ it) && decide (a ∉ seen)) := by
  simp [List.mem_cons, not_or]

theorem dedupLoop_spec :
    ∀ (raw : List RawItem) (seen : List String),
      VecRetriever.dedupLoop raw seen =
        (dedupFirst ((raw.filter (fun r => decide (r.text ≠ ""))).filter
          (fun r => decide (r.text ∉ seen)))).map VecRetriever.toResult := by
  intro raw
  induction raw with
  | nil => intro seen; simp [VecRetriever.dedupLoop, dedupFirst]
  | cons item rest ih =>
    intro seen
    by_cases h1 : item.text = ""
    · simp only [VecRetriever.dedupLoop, List.filter_cons, h1]
      rw [if_neg (by simp), decide_eq_false (by simp)]
      exact ih seen
    by_cases h2 : item.text ∈ seen
    · simp only [VecRetriever.dedupLoop, List.filter_cons]
      rw [if_neg (by simp [h2]), decide_eq_true (by simpa using h1),
        if_pos rfl, List.filter_cons, decide_eq_false (by simpa using h2)]
      exact ih seen
    · simp only [VecRetriever.dedupLoop, List.filter_cons]
      rw [if_pos ⟨h1, h2⟩, decide_eq_true (by simpa using h1), if_pos rfl,
        List.filter_cons, decide_eq_true (by simpa using h2), if_pos rfl]
      have hfilters :
          (((rest.filter (fun r => decide (r.text ≠ ""))).filter
            (fun r => decide (r.text ∉ seen))).filter
              (fun y => decide (y.text ≠ item.text))) =
          ((rest.filter (fun r => decide (r.text ≠ ""))).filter
            (fun r => decide (r.text ∉ item.text :: seen))) := by
        rw [List.filter_filter]
        apply List.filter_congr
        intro a _
        rw [decide_not_mem_cons, Bool.and_comm]
      rw [ih (item.text :: seen), ← hfilters]
      rw [dedupFirst]
      simp [List.map_cons]

/-- C5, counterexample to the claim as stated: a record whose content `" "`
is blank (whitespace-only) but not empty is KEPT by `VecRetriever.search`
— the code's `if content` truthiness test only drops empty content, so
blank records are not dropped. -/
theorem vec_search_blank_counterexample :
    VecRetriever.search [⟨" ", "f.txt", none⟩] = [⟨" ", "f.txt", none⟩] ∧
    isBlank " " = true ∧ (" ") ≠ "" :=
  ⟨rfl, by decide, by decide⟩

/-- C5, amended: the vector adapter drops exactly the records whose content
is the empty string (blank but nonempty, e.g. whitespace-only, content is
retained), then deduplicates by exact content equality, keeping the first
(highest-ranked) occurrence together with its metadata and discarding
later duplicates, preserving the incoming rank order of the surviving
records. -/
theorem vec_search_dedup_spec (raw : List RawItem) :
    VecRetriever.search raw =
      (dedupFirst (raw.filter (fun r => decide (r.text ≠ "")))).map
        VecRetriever.toResult := by
  unfold VecRetriever.search
  rw [dedupLoop_spec raw []]
  simp

theorem dedupLoop_length_le :
    ∀ (raw : List RawItem) (seen : List String),
      (VecRetriever.dedupLoop raw seen).length ≤ raw.length := by
  intro raw
  induction raw with
  | nil => intro seen; simp [VecRetriever.dedupLoop]
  | cons item rest ih =>
    intro seen
    simp only [VecRetriever.dedupLoop]
    by_cases h : item.text ≠ "" ∧ item.text ∉ seen
    · rw [if_pos h]
      simpa using Nat.succ_le_succ (ih (item.text :: seen))
    · rw [if_neg h]
      exact le_trans (ih seen) (Nat.le_succ _)

/-! ### C3, C6, C9: orchestration, bounds, defaults -/

/-- C3: if construction of the optional external reranker fails for any
reason, the failure is absorbed during the manager's construction — the
reranker resolves to the disabled state `none`, nothing propagates — and
`search` still returns the RRF-fused, RRF-ordered results unchanged. -/
theorem external_reranker_failure_isolation {H : Type}
    (pinecone_key : String) (construct : String → Except String H)
    (e : String) (hfail : construct pinecone_key.trim = .error e) :
    RetrievalManager.resolveExternalReranker true pinecone_key construct =
      none ∧
    ∀ (liftReranker :
        H → String → List (RRFResult × ℚ) → ℕ → List (RRFResult × ℚ))
      (rrf_k vw kw : ℚ) (vres kres : List RRFResult) (top_k : ℕ)
      (query : String),
      EnhancedHybridRetriever.search rrf_k vw kw vres kres top_k
        ((RetrievalManager.resolveExternalReranker true pinecone_key
          construct).map liftReranker) query =
      RRFReranker.rerank_with_weights rrf_k [vres, kres] [vw, kw] top_k := by
  have hres : RetrievalManager.resolveExternalReranker true pinecone_key
      construct = none := by
    by_cases hk : pinecone_key.trim ≠ ""
    · simp [RetrievalManager.resolveExternalReranker, hk, hfail]
    · simp [RetrievalManager.resolveExternalReranker, hk]
  refine ⟨hres, ?_⟩
  intro liftReranker rrf_k vw kw vres kres top_k query
  rw [hres]
  unfold EnhancedHybridRetriever.search
  cases h : RRFReranker.rerank_with_weights rrf_k [vres, kres] [vw, kw] top_k
  · rfl
  · rfl

/-- Witness for `external_reranker_failure_isolation`: a constructor that
always fails leaves the adapter disabled, and hybrid search returns the
RRF fusion of two singleton lists unchanged. -/
theorem external_reranker_failure_isolation_witness :
    RetrievalManager.resolveExternalReranker true "key"
      (fun _ => (Except.error "boom" : Except String Unit)) = none ∧
    EnhancedHybridRetriever.search 0 1 1 [exD1] [exD3] 3
      ((RetrievalManager.resolveExternalReranker true "key"
        (fun _ => (Except.error "boom" : Except String Unit))).map
        (fun _ _ l _ => l)) "q" =
      RRFReranker.rerank_with_weights 0 [[exD1], [exD3]] [1, 1] 3 :=
  ⟨(external_reranker_failure_isolation "key"
      (fun _ => (Except.error "boom" : Except String Unit)) "boom" rfl).1,
   (external_reranker_failure_isolation "key"
      (fun _ => (Except.error "boom" : Except String Unit)) "boom" rfl).2
     (fun _ _ l _ => l) 0 1 1 [exD1] [exD3] 3 "q"⟩

/-- The `ok` result of `rerank_with_weights` is the sorted accumulator
truncated to `top_k`. -/
theorem rerank_ok_shape (k : ℚ) (lists : List (List RRFResult))
    (weights : List ℚ) (top_k : ℕ) (out : List (RRFResult × ℚ))
    (h : RRFReranker.rerank_with_weights k lists weights top_k = .ok out) :
    out = (sortDescBy (fun p => p.2)
      (RRFReranker.accumulate k lists weights)).take top_k := by
  unfold RRFReranker.rerank_with_weights at h
  by_cases hm : lists.length ≠ weights.length
  · rw [if_pos hm] at h
    exact absurd h (by simp)
  · rw [if_neg hm] at h
    rw [Except.ok.injEq] at h
    exact h.symm

/-- C6, counterexample to the claim as stated: the external rerank stage,
invoked directly with the valid `top_n = 0` on two documents and a remote
that honors every requested count, returns 2 entries — Python's
`top_n or len(documents)` treats `0` as falsy and falls back to the
document count, so the `len(result) ≤ top_k` bound fails at `top_k = 0`
for this stage. -/
theorem rerank_top_n_zero_counterexample :
    (PineconeCohereReranker.rerank (fun r : RRFResult => r.content)
      (fun _ _ kk => (List.range kk).map (fun i => RerankEntry.mk (i : ℤ) 1))
      "q" [exD1, exD2] (some 0)).length = 2 ∧
    ((List.range 2).map (fun i => RerankEntry.mk (i : ℤ) 1)).length ≤ 2 ∧
    ¬((2 : ℕ) ≤ 0) := by
  refine ⟨?_, by decide, by decide⟩
  decide

/-- C6, amended: the vector adapter (under the ≤ `top_k` dense-search
contract), keyword search, and RRF fusion each return at most `top_k`
results for every `top_k ≥ 0`; the external rerank stage returns at most
`top_n` results for every `top_n ≥ 1` under a count-honoring remote (at
`top_n = 0` the code's `top_n or len(documents)` falls back to the
document count and the bound can fail); and within the pipeline that case
is unreachable — at `top_k = 0` the fused list is empty and the reranker
is never invoked — so the orchestrator's final result is bounded by
`top_k` for every `top_k ≥ 0`, with the external reranker only ever
required to honor its count on nonempty input at `top_k ≥ 1`. -/
theorem stage_results_bounded (top_k : ℕ) :
    (∀ raw : List RawItem, raw.length ≤ top_k →
      (VecRetriever.search raw).length ≤ top_k) ∧
    (∀ (dt : List (List String)) (q : List String),
      (KeywordRetriever.searchIdx dt q top_k).length ≤ top_k) ∧
    (∀ (k : ℚ) (lists : List (List RRFResult)) (weights : List ℚ)
      (out : List (RRFResult × ℚ)),
      RRFReranker.rerank_with_weights k lists weights top_k = .ok out →
      out.length ≤ top_k) ∧
    (∀ (α : Type) (contentOf : α → String)
      (remote : String → List (String × String) → ℕ → List RerankEntry)
      (query : String) (results : List α) (n : ℕ), 1 ≤ n →
      (∀ q docs kk, (remote q docs kk).length ≤ kk) →
      (PineconeCohereReranker.rerank contentOf remote query results
        (some n)).length ≤ n) ∧
    (∀ (k vw kw : ℚ) (vres kres : List RRFResult)
      (ext : Option (String → List (RRFResult × ℚ) → ℕ → List (RRFResult × ℚ)))
      (query : String) (out : List (RRFResult × ℚ)),
      (∀ f, ext = some f → ∀ l : List (RRFResult × ℚ),
        l ≠ [] → 1 ≤ top_k → (f query l top_k).length ≤ top_k) →
      EnhancedHybridRetriever.search k vw kw vres kres top_k ext query =
        .ok out →
      out.length ≤ top_k) := by
  refine ⟨?_, ?_, ?_, ?_, ?_⟩
  · intro raw hraw
    exact le_trans (dedupLoop_length_le raw []) hraw
  · intro dt q
    rw [searchIdx_eq_take]
    exact List.length_take_le top_k _
  · intro k lists weights out h
    rw [rerank_ok_shape k lists weights top_k out h]
    exact List.length_take_le top_k _
  · intro α contentOf remote query results n hn hremote
    unfold PineconeCohereReranker.rerank
    by_cases hres : results.isEmpty
    · rw [if_pos hres]
      simp
    rw [if_neg hres]
    have h1 : (PineconeCohereReranker.rerankPost results
        (remote query
          (results.enum.map (fun p => (toString p.1, (contentOf p.2).trim)))
          (min (PineconeCohereReranker.resolveTopN (some n) results.length)
            results.length))).length ≤
        (remote query
          (results.enum.map (fun p => (toString p.1, (contentOf p.2).trim)))
          (min (PineconeCohereReranker.resolveTopN (some n) results.length)
            results.length)).length := by
      unfold PineconeCohereReranker.rerankPost
      exact le_trans (List.length_filterMap_le _ _) (le_of_eq List.enum_length)
    refine le_trans h1 (le_trans (hremote _ _ _) ?_)
    have htopn : PineconeCohereReranker.resolveTopN (some n) results.length = n := by
      show (if n = 0 then results.length else n) = n
      rw [if_neg (by omega)]
    rw [htopn]
    exact min_le_left n _
  · intro k vw kw vres kres ext query out hext hsearch
    unfold EnhancedHybridRetriever.search at hsearch
    cases hfus : RRFReranker.rerank_with_weights k [vres, kres] [vw, kw] top_k with
    | error e =>
      rw [hfus] at hsearch
      exact absurd hsearch (by simp)
    | ok fused =>
      rw [hfus] at hsearch
      have hfl : fused.length ≤ top_k := by
        rw [rerank_ok_shape k [vres, kres] [vw, kw] top_k fused hfus]
        exact List.length_take_le top_k _
      cases ext with
      | none =>
        dsimp only at hsearch
        rw [Except.ok.injEq] at hsearch
        rw [← hsearch]
        exact hfl
      | some f =>
        dsimp only at hsearch
        by_cases hne : fused ≠ []
        · have h1 : 1 ≤ top_k := by
            by_contra h0
            have h00 : top_k = 0 := by omega
            apply hne
            rw [rerank_ok_shape k [vres, kres] [vw, kw] top_k fused hfus, h00]
            exact List.take_zero _
          rw [if_pos hne, Except.ok.injEq] at hsearch
          rw [← hsearch]
          exact hext f rfl fused hne h1
        · rw [if_neg hne, Except.ok.injEq] at hsearch
          rw [← hsearch]
          exact hfl

/-- Witness for `stage_results_bounded`, with each stage's hypotheses
discharged concretely (a one-record raw list, an always-empty remote, and
the orchestrator at `top_k = 0` with no reranker). -/
theorem stage_results_bounded_witness :
    (VecRetriever.search [⟨"x", "f", none⟩]).length ≤ 2 ∧
    (KeywordRetriever.searchIdx [["aa"]] ["aa"] 2).length ≤ 2 ∧
    ([] : List (RRFResult × ℚ)).length ≤ 2 ∧
    (PineconeCohereReranker.rerank (fun r : RRFResult => r.content)
      (fun _ _ _ => []) "q" [exD1] (some 1)).length ≤ 1 ∧
    ([] : List (RRFResult × ℚ)).length ≤ 0 :=
  ⟨(stage_results_bounded 2).1 [⟨"x", "f", none⟩] (by decide),
   (stage_results_bounded 2).2.1 [["aa"]] ["aa"],
   (stage_results_bounded 2).2.2.1 0 [] [] [] rfl,
   (stage_results_bounded 2).2.2.2.1 RRFResult (fun r => r.content)
     (fun _ _ _ => []) "q" [exD1] 1 (by decide) (fun _ _ _ => by simp),
   (stage_results_bounded 0).2.2.2.2 0 1 1 [exD1] [exD3] none "q" []
     (fun f hf => nomatch hf) rfl⟩

/-- C9, counterexample to the claim as stated: the fusion reranker's own
rank-smoothing constant defaults to 60, not 20 — both `RRFReranker.__init__`
(`k: int = 60`) and `EnhancedHybridRetriever.__init__` (`rrf_k: int = 60`)
use 60 when the value is not explicitly supplied. -/
theorem rrf_default_k_counterexample :
    RRFReranker.defaultK = 60 ∧ RRFReranker.defaultK ≠ 20 ∧
    EnhancedHybridRetriever.defaultRrfK = 60 ∧
    EnhancedHybridRetriever.defaultRrfK ≠ 20 := by decide

/-- C9, amended: the 20 default lives in the system configuration —
`RAGConfig` defaults `rrf_k` to 20 and the retrieval manager always passes
the configured `rrf_k` through to fusion, so a system built from a default
configuration fuses with `k = 20` — while the `RRFReranker` and
`EnhancedHybridRetriever` classes themselves default `k` to 60 when it is
not explicitly supplied. -/
theorem rrf_k_default_wiring :
    RAGConfig.mkDefault.rrf_k = 20 ∧
    RetrievalManager.fusionK RAGConfig.mkDefault = 20 ∧
    RRFReranker.defaultK = 60 ∧
    EnhancedHybridRetriever.defaultRrfK = 60 := by decide
